import Mathlib

/-!
Verification development for the fsearch utility (src/fsearch.py).

The filesystem is modelled shallowly: a file is described by the
observable data the program reads from it (the leading byte sample used
by the binary classifier, and the decoded text lines used by the line
reader), and a directory tree is a finite tree of named entries.  Paths
are lists of name components relative to the search root.  Machine
integers are modelled as Nat / Int; fallible operations return Except.
-/

namespace FSearch

/-- MAX_LINE_LENGTH constant from fsearch.py ("Prevent memory issues"). -/
def MAX_LINE_LENGTH : Nat := 10000

/-- DEFAULT_CHECK_BYTES constant from fsearch.py: size of the leading
sample read by the binary classifier.  In the model a file's sample
field already denotes that leading chunk. -/
def DEFAULT_CHECK_BYTES : Nat := 1024

/-- Observable content of one file:
* 'sample' is the leading chunk (up to DEFAULT_CHECK_BYTES bytes) that
  'open(path, "rb").read(num_bytes)' returns, or 'none' when opening or
  reading the file fails (permission error, vanished file, ...);
* 'lines' is the list of lines that iterating the file opened as UTF-8
  text with errors ignored produces, or 'none' when that read fails. -/
structure FileData where
  sample : Option (List Nat)
  lines : Option (List String)
deriving Repr, DecidableEq

instance : Inhabited FileData := ⟨⟨none, none⟩⟩

mutual

/-- Strict UTF-8 validity of a byte string, as checked by Python's
'bytes.decode("utf-8")': disallows overlong encodings, surrogates
(0xD800..0xDFFF) and code points above 0x10FFFF.  Lead bytes select the
admissible range of the first continuation byte and how many further
continuation bytes follow. -/
def validUtf8 : List Nat → Bool
  | [] => true
  | b :: rest =>
    if b ≤ 127 then validUtf8 rest
    else if b ≤ 193 then false
    else if b ≤ 223 then tailBytes 128 191 0 rest
    else if b = 224 then tailBytes 160 191 1 rest
    else if b = 237 then tailBytes 128 159 1 rest
    else if b ≤ 239 then tailBytes 128 191 1 rest
    else if b = 240 then tailBytes 144 191 2 rest
    else if b ≤ 243 then tailBytes 128 191 2 rest
    else if b = 244 then tailBytes 128 143 2 rest
    else false

/-- One continuation byte constrained to lo..hi, then extra further
continuation bytes in 128..191, then the rest of the string. -/
def tailBytes (lo hi extra : Nat) : List Nat → Bool
  | [] => false
  | c :: r =>
    if lo ≤ c ∧ c ≤ hi then
      match extra with
      | 0 => validUtf8 r
      | e + 1 => tailBytes 128 191 e r
    else false

end

/-- is_binary_file from fsearch.py: a file is "binary" when its leading
sample contains a null byte or is not valid UTF-8; any failure to open
or read the file (sample = none) also yields the binary verdict. -/
def is_binary_file (f : FileData) : Bool :=
  match f.sample with
  | none => true
  | some chunk =>
    if chunk.contains 0 then true
    else !(validUtf8 chunk)

/-- read_file_lines from fsearch.py: empty for binary files, empty when
the text read fails, otherwise the file's lines with every line longer
than max_line_length dropped (the rest of the file still processed). -/
def read_file_lines (f : FileData) (max_line_length : Nat) : List String :=
  if is_binary_file f then []
  else
    match f.lines with
    | none => []
    | some ls => ls.filter (fun line => !(line.length > max_line_length))

/-- Substring containment on character lists, modelling Python's
'pattern in line' for strings. -/
def substrIn (needle : List Char) : List Char → Bool
  | [] => needle.isEmpty
  | c :: t => needle.isPrefixOf (c :: t) || substrIn needle t

/-- search_in_file from fsearch.py: the 0-based-indexed lines of the
file (read through read_file_lines with the default bound) that contain
the pattern as a literal substring, in file order. -/
def search_in_file (pattern : String) (f : FileData) : List (Nat × String) :=
  let content := read_file_lines f MAX_LINE_LENGTH
  if content.isEmpty then []
  else content.enum.filter (fun il => substrIn pattern.data il.2.data)

/-- ASCII lowercasing of one character, modelling str.lower() on the
character range the claims exercise. -/
def toLowerCh (c : Char) : Char :=
  if 'A' ≤ c ∧ c ≤ 'Z' then Char.ofNat (c.toNat + 32) else c

/-- str.lower() on a whole string. -/
def lowerStr (s : String) : String := String.mk (s.data.map toLowerCh)

/-- Python str.split(',') on the character level. -/
def splitOnComma : List Char → List (List Char)
  | [] => [[]]
  | ',' :: t => [] :: splitOnComma t
  | c :: t =>
    match splitOnComma t with
    | [] => [[c]]
    | g :: gs => (c :: g) :: gs

/-- Whitespace recognised by Python str.strip(). -/
def isSpaceCh (c : Char) : Bool :=
  c = ' ' || c = '\t' || c = '\n' || c = '\x0b' || c = '\x0c' || c = '\r'

/-- Python str.strip(). -/
def stripWS (l : List Char) : List Char :=
  ((l.dropWhile isSpaceCh).reverse.dropWhile isSpaceCh).reverse

/-- parse_include_patterns from fsearch.py: split the comma-separated
include string, strip each piece, drop empty pieces, lowercase when
case-insensitive. -/
def parse_include_patterns (include_pattern : String) (case_insensitive : Bool) :
    List String :=
  if include_pattern = "" then []
  else
    let patterns :=
      (((splitOnComma include_pattern.data).map stripWS).filter
        (fun p => !p.isEmpty)).map String.mk
    if case_insensitive then patterns.map lowerStr else patterns

/-- Scan for the first unescaped ']' in a bracket expression, returning
the content before it and the remainder after it. -/
def findClose : List Char → Option (List Char × List Char)
  | [] => none
  | ']' :: rest => some ([], rest)
  | c :: rest =>
    match findClose rest with
    | none => none
    | some ab => some (c :: ab.1, ab.2)

/-- Locate the closing ']' of a bracket expression the way
fnmatch.translate scans for it: a leading '!' and a ']' directly after
it (or a leading ']') belong to the content.  Returns none when the '['
is unmatched, in which case it is treated as a literal. -/
def splitBracket (l : List Char) : Option (List Char × List Char) :=
  match l with
  | '!' :: ']' :: rest => (findClose rest).map (fun ab => ('!' :: ']' :: ab.1, ab.2))
  | '!' :: rest => (findClose rest).map (fun ab => ('!' :: ab.1, ab.2))
  | ']' :: rest => (findClose rest).map (fun ab => (']' :: ab.1, ab.2))
  | _ => findClose l

/-- Membership of a character in the body of a bracket expression:
'a-b' denotes the (code point) range, other characters stand for
themselves; a hyphen first or last is literal.  An inverted range is
empty, matching fnmatch.translate's pruning of such ranges. -/
def memBracket (c : Char) : List Char → Bool
  | [] => false
  | a :: '-' :: b :: rest => (a ≤ c && c ≤ b) || memBracket c rest
  | a :: rest => (c = a) || memBracket c rest

/-- Full bracket-expression match: a leading '!' negates the set (still
consuming exactly one character of the name). -/
def bracketMatch (c : Char) (stuff : List Char) : Bool :=
  match stuff with
  | '!' :: rest => !(memBracket c rest)
  | _ => memBracket c stuff

/-- Anchored glob matching as implemented by Python's fnmatch module
(compiled via fnmatch.translate and re.match(...).\Z): '*' matches any
run of characters, '?' exactly one character, '[...]' a bracket
expression, every other character itself; an unmatched '[' is literal.
First argument is the pattern, second the name. -/
def globMatch : List Char → List Char → Bool
  | [], ns => ns.isEmpty
  | c :: ps, ns =>
    if c = '*' then
      globMatch ps ns ||
        (match ns with
         | [] => false
         | _ :: nt => globMatch (c :: ps) nt)
    else if c = '?' then
      (match ns with
       | [] => false
       | _ :: nt => globMatch ps nt)
    else if c = '[' then
      (match splitBracket ps with
       | none =>
         (match ns with
          | c' :: nt => (c = c') && globMatch ps nt
          | [] => false)
       | some sr =>
         (match ns with
          | [] => false
          | c' :: nt => bracketMatch c' sr.1 && globMatch sr.2 nt))
    else
      (match ns with
       | [] => false
       | c' :: nt => (c = c') && globMatch ps nt)
termination_by ps ns => (ns.length, ps.length)

/-- fnmatch.fnmatch(name, pattern) on a POSIX system (where
os.path.normcase is the identity). -/
def fnmatch (name pat : String) : Bool := globMatch pat.data name.data

/-- matches_include_pattern from fsearch.py: vacuously true for an
empty include list, otherwise the (possibly lowercased) file name must
fnmatch-match at least one include pattern. -/
def matches_include_pattern (filename : String) (include_patterns : List String)
    (case_insensitive : Bool) : Bool :=
  if include_patterns.isEmpty then true
  else
    let fname := if case_insensitive then lowerStr filename else filename
    include_patterns.any (fun pat => fnmatch fname pat)

/-- Whether fast_find / find_with_depth treat the pattern as a wildcard
pattern: it contains '*' or '?'. -/
def hasWildcard (pattern : String) : Bool :=
  pattern.data.contains '*' || pattern.data.contains '?'

/-- Case folding applied to the name and the pattern before matching
when case-insensitive search is selected. -/
def foldCI (case_insensitive : Bool) (s : String) : String :=
  if case_insensitive then lowerStr s else s

/-- The name-matching rule both traversal strategies apply to each
visited entry (fsearch.py lines 278-287 and 379-386): wildcard patterns
are matched with fnmatch against the whole name, other patterns by
substring containment; name and pattern are lowercased first when
case-insensitive. -/
def matches_name (name pattern : String) (case_insensitive : Bool) : Bool :=
  let entry_name := foldCI case_insensitive name
  let match_pattern := foldCI case_insensitive pattern
  if hasWildcard pattern then fnmatch entry_name match_pattern
  else substrIn match_pattern.data entry_name.data

/-- match_pattern.replace('*', '') from fsearch.py: the string handed
to search_in_file by both traversal strategies.  Only '*' is removed. -/
def strip_stars (s : String) : String := String.mk (s.data.filter (fun c => c ≠ '*'))

/-- The kinds of SearchError raised by the traversal functions:
"Directory does not exist", "Not a directory", "max_depth must be >= 0". -/
inductive SearchErrorKind where
  | notFound
  | notADirectory
  | invalidArgument
deriving Repr, DecidableEq

/-- One element of the result list: a plain path for a name match, or a
path with its matching (0-based line index, line text) pairs when
content search is enabled.  Paths are component lists relative to the
search root. -/
inductive MatchResult where
  | plain (path : List String)
  | content (path : List String) (found : List (Nat × String))
deriving Repr, DecidableEq

/-- A directory tree with no symbolic links: each entry is a file with
observable FileData or a directory with a list of named children. -/
inductive FSTree where
  | file (d : FileData)
  | dir (children : List (String × FSTree))
deriving Repr

/-- entry.is_file() (no symlinks in the model). -/
def FSTree.isFile : FSTree → Bool
  | .file _ => true
  | .dir _ => false

/-- entry.is_dir() (no symlinks in the model). -/
def FSTree.isDir : FSTree → Bool
  | .file _ => false
  | .dir _ => true

/-- The parameters shared by every per-entry decision of a traversal,
after the traversal function's own preprocessing (include patterns
parsed, include_dirs already overridden for content mode). -/
structure Args where
  pattern : String
  include_dirs : Bool
  case_insensitive : Bool
  search_in_files : Bool
  include_patterns : List String
deriving Repr

/-- The folded pattern (match_pattern in fsearch.py). -/
def matchPatternOf (A : Args) : String := foldCI A.case_insensitive A.pattern

/-- The content-search attempt both strategies make on a file: run
search_in_file with the star-stripped match pattern and record a
content result only when at least one line matched. -/
def contentAttempt (A : Args) (path : List String) (fd : FileData) : List MatchResult :=
  let found_lines := search_in_file (strip_stars (matchPatternOf A)) fd
  if found_lines.isEmpty then [] else [MatchResult.content path found_lines]

/-- The per-entry match logic shared verbatim by fast_find (fsearch.py
lines 271-308) and find_with_depth (lines 373-407): files that fail the
include filter are skipped; a name match yields a plain result (for a
file always, for a directory only when include_dirs) unless content
search is on and the entry is a file, in which case a content attempt
is made; in content mode every file is content-searched even when its
name does not match. -/
def processEntry (A : Args) (path : List String) (name : String) (e : FSTree) :
    List MatchResult :=
  match e with
  | .file fd =>
    if !matches_include_pattern name A.include_patterns A.case_insensitive then []
    else if matches_name name A.pattern A.case_insensitive then
      if A.search_in_files then contentAttempt A path fd
      else [MatchResult.plain path]
    else if A.search_in_files then contentAttempt A path fd
    else []
  | .dir _ =>
    if matches_name name A.pattern A.case_insensitive && A.include_dirs then
      [MatchResult.plain path]
    else []

mutual

/-- The nested recursive function search(current_dir, current_depth) of
fast_find: stop when current_depth exceeds max_depth, else scan the
directory's entries. -/
def searchA (A : Args) (max_depth : Int) : FSTree → Int → List String → List MatchResult
  | .file _, _, _ => []
  | .dir cs, current_depth, pfx =>
    if current_depth > max_depth then []
    else searchAEntries A max_depth cs current_depth pfx

/-- The body of the scandir loop of fast_find's search: process each
entry, recursing into directories with current_depth + 1. -/
def searchAEntries (A : Args) (max_depth : Int) :
    List (String × FSTree) → Int → List String → List MatchResult
  | [], _, _ => []
  | (name, e) :: rest, current_depth, pfx =>
    (processEntry A (pfx ++ [name]) name e ++
      (if e.isDir then searchA A max_depth e (current_depth + 1) (pfx ++ [name]) else [])) ++
    searchAEntries A max_depth rest current_depth pfx

end

/-- fast_find from fsearch.py (strategy A, bounded manual recursion).
base_dir is none when the path does not exist, some t otherwise.
Validation order follows the source: existence, then is-directory, then
max_depth >= 0; then include patterns are parsed, include_dirs is
forced false in content mode, and search(base_dir, 0) runs. -/
def fast_find (base_dir : Option FSTree) (pattern : String) (max_depth : Int)
    (include_dirs case_insensitive search_in_files : Bool) (include_pattern : String) :
    Except SearchErrorKind (List MatchResult) :=
  match base_dir with
  | none => .error .notFound
  | some t =>
    if !t.isDir then .error .notADirectory
    else if max_depth < 0 then .error .invalidArgument
    else
      let include_patterns := parse_include_patterns include_pattern case_insensitive
      let include_dirs := if search_in_files then false else include_dirs
      let A : Args :=
        ⟨pattern, include_dirs, case_insensitive, search_in_files, include_patterns⟩
      .ok (searchA A max_depth t 0 [])

mutual

/-- Path.rglob("*"): every descendant of the tree paired with its path
relative to the root (enumeration order is irrelevant to the claims,
which compare results up to ordering; the model lists a subtree's
entries in preorder).  rglob of a file yields nothing. -/
def rglob : FSTree → List String → List (List String × FSTree)
  | .file _, _ => []
  | .dir cs, pfx => rglobEntries cs pfx

/-- The children part of rglob. -/
def rglobEntries : List (String × FSTree) → List String → List (List String × FSTree)
  | [], _ => []
  | (name, e) :: rest, pfx =>
    (pfx ++ [name], e) :: (rglob e (pfx ++ [name]) ++ rglobEntries rest pfx)

end

/-- The per-entry body of find_with_depth's rglob loop: skip the entry
when relative_depth = len(p.relative_to(base).parts) exceeds max_depth,
else apply the shared per-entry logic (p.name is the last component). -/
def processB (A : Args) (max_depth : Int) (pe : List String × FSTree) : List MatchResult :=
  if (pe.1.length : Int) > max_depth then []
  else processEntry A pe.1 (pe.1.getLastD "") pe.2

/-- find_with_depth from fsearch.py (strategy B, full enumeration plus
depth filter).  Validation order follows the source: existence, then
max_depth >= 0; there is no is-directory check, and rglob on a file
yields nothing, so a file base_dir produces an empty result list. -/
def find_with_depth (base_dir : Option FSTree) (pattern : String) (max_depth : Int)
    (include_dirs case_insensitive search_in_files : Bool) (include_pattern : String) :
    Except SearchErrorKind (List MatchResult) :=
  match base_dir with
  | none => .error .notFound
  | some t =>
    if max_depth < 0 then .error .invalidArgument
    else
      let include_dirs := if search_in_files then false else include_dirs
      let include_patterns := parse_include_patterns include_pattern case_insensitive
      let A : Args :=
        ⟨pattern, include_dirs, case_insensitive, search_in_files, include_patterns⟩
      .ok ((rglob t []).flatMap (processB A max_depth))

/-- Outcome of the validation phase of main() in fsearch.py: the depth
flag is checked first (before any filesystem access), then path
existence, then is-directory; only then is a search function invoked. -/
inductive CliOutcome where
  | invalidDeep
  | pathNotFound
  | pathNotDir
  | runSearch
deriving Repr, DecidableEq

/-- The validation sequence of main() (fsearch.py lines 491-503). -/
def main_validate (deep : Int) (base_dir : Option FSTree) : CliOutcome :=
  if deep < 0 then .invalidDeep
  else
    match base_dir with
    | none => .pathNotFound
    | some t => if !t.isDir then .pathNotDir else .runSearch

mutual

/-- Instrumented strategy-A traversal: the paths of exactly those
entries the scandir loop of fast_find's search reaches (visits and
considers for matching), with the same depth guard and recursion. -/
def visitedA (max_depth : Int) : FSTree → Int → List String → List (List String)
  | .file _, _, _ => []
  | .dir cs, current_depth, pfx =>
    if current_depth > max_depth then []
    else visitedAEntries max_depth cs current_depth pfx

/-- The entries part of visitedA. -/
def visitedAEntries (max_depth : Int) :
    List (String × FSTree) → Int → List String → List (List String)
  | [], _, _ => []
  | (name, e) :: rest, current_depth, pfx =>
    (pfx ++ [name]) ::
      ((if e.isDir then visitedA max_depth e (current_depth + 1) (pfx ++ [name]) else []) ++
        visitedAEntries max_depth rest current_depth pfx)

end

/-- All entry paths of a tree, at every depth. -/
def allPaths (t : FSTree) : List (List String) := (rglob t []).map (fun pe => pe.1)

/-- Instrumented strategy-B traversal: the paths of exactly those
entries that pass find_with_depth's relative_depth filter and so are
considered for matching. -/
def visitedB (max_depth : Int) (t : FSTree) : List (List String) :=
  ((rglob t []).filter (fun pe => !((pe.1.length : Int) > max_depth))).map (fun pe => pe.1)

/-! ### Concrete fixtures used by counterexamples and witnesses -/

/-- A small ASCII text file. -/
def fileHi : FileData := ⟨some [104], some ["hi"]⟩

/-- A directory holding one text file a.txt. -/
def treeOne : FSTree := FSTree.dir [("a.txt", FSTree.file fileHi)]

/-- A text file whose single line contains the literal text "xa?by". -/
def fileQm : FileData := ⟨some [120], some ["xa?by"]⟩

/-- A directory holding f.txt with a literal question mark in its text. -/
def treeQm : FSTree := FSTree.dir [("f.txt", FSTree.file fileQm)]

/-- A text file with a TODO marker on its second line (0-based index 1). -/
def fileTodo : FileData := ⟨some [120], some ["x=1\n", "# TODO fix\n"]⟩

/-- A directory holding a.py with the TODO marker. -/
def treeTodo : FSTree := FSTree.dir [("a.py", FSTree.file fileTodo)]

/-! ### The wildcard semantics stated by the specification

Modelled from the spec: "apply wildcard matching semantics where '*'
matches zero or more characters and '?' matches exactly one character
... anchored full-string match".  Every character other than '*' and
'?' stands for itself.  This is the specification's notion against
which the implementation's fnmatch-based matching is compared. -/
inductive WildMatches : List Char → List Char → Prop where
  | nil : WildMatches [] []
  | lit {ps ns : List Char} (c : Char) :
      c ≠ '*' → c ≠ '?' → WildMatches ps ns → WildMatches (c :: ps) (c :: ns)
  | one {ps ns : List Char} (c : Char) :
      WildMatches ps ns → WildMatches ('?' :: ps) (c :: ns)
  | starEmpty {ps ns : List Char} :
      WildMatches ps ns → WildMatches ('*' :: ps) ns
  | starCons {ps ns : List Char} (c : Char) :
      WildMatches ('*' :: ps) ns → WildMatches ('*' :: ps) (c :: ns)

/-! ### Basic lemmas about the content-search layer -/

theorem substrIn_iff (n h : List Char) : substrIn n h = true ↔ n <:+: h := by
  induction h with
  | nil => simp [substrIn, List.isEmpty_iff]
  | cons c t ih =>
    simp [substrIn, ih, List.infix_cons_iff, List.isPrefixOf_iff_prefix, or_comm]

theorem validUtf8_ascii (l : List Nat) (h : ∀ b ∈ l, b ≤ 127) : validUtf8 l = true := by
  induction l with
  | nil => rfl
  | cons b rest ih =>
    have hb : b ≤ 127 := h b (by simp)
    rw [validUtf8, if_pos hb]
    exact ih (fun x hx => h x (by simp [hx]))

theorem mem_read_file_lines (f : FileData) (m : Nat) (l : String) :
    l ∈ read_file_lines f m ↔
      is_binary_file f = false ∧ ∃ ls, f.lines = some ls ∧ l ∈ ls ∧ l.length ≤ m := by
  unfold read_file_lines
  split
  · rename_i hbin
    simp [hbin]
  · rename_i hbin
    rw [Bool.not_eq_true] at hbin
    cases hls : f.lines with
    | none => simp [hbin]
    | some ls => simp [hbin, List.mem_filter, Nat.not_lt]

theorem search_in_file_mem (pattern : String) (f : FileData) (il : Nat × String)
    (h : il ∈ search_in_file pattern f) :
    substrIn pattern.data il.2.data = true ∧ il.2.length ≤ MAX_LINE_LENGTH := by
  simp only [search_in_file] at h
  split at h
  · simp at h
  · rw [List.mem_filter] at h
    obtain ⟨henum, hsub⟩ := h
    refine ⟨hsub, ?_⟩
    have hmem : il.2 ∈ read_file_lines f MAX_LINE_LENGTH := by
      rw [List.mem_enum_iff_getElem?] at henum
      exact List.getElem?_mem henum
    obtain ⟨-, ls, -, -, hlen⟩ := (mem_read_file_lines f MAX_LINE_LENGTH il.2).1 hmem
    exact hlen

/-! ### Shape of per-entry results -/

theorem contentAttempt_mem (A : Args) (path : List String) (fd : FileData)
    (r : MatchResult) (h : r ∈ contentAttempt A path fd) :
    r = MatchResult.content path (search_in_file (strip_stars (matchPatternOf A)) fd) ∧
      (search_in_file (strip_stars (matchPatternOf A)) fd).isEmpty = false := by
  simp only [contentAttempt] at h
  split at h
  · simp at h
  · rename_i hne
    simp at h
    exact ⟨h, by rwa [Bool.not_eq_true] at hne⟩

theorem processEntry_mem (A : Args) (path : List String) (name : String) (e : FSTree)
    (r : MatchResult) (h : r ∈ processEntry A path name e) :
    r = MatchResult.plain path ∨
      ∃ fd, e = FSTree.file fd ∧
        r = MatchResult.content path (search_in_file (strip_stars (matchPatternOf A)) fd) ∧
        (search_in_file (strip_stars (matchPatternOf A)) fd).isEmpty = false := by
  cases e with
  | file fd =>
    simp only [processEntry] at h
    split at h
    · simp at h
    · split at h
      · split at h
        · exact Or.inr ⟨fd, rfl, contentAttempt_mem A path fd r h⟩
        · simp at h
          exact Or.inl h
      · split at h
        · exact Or.inr ⟨fd, rfl, contentAttempt_mem A path fd r h⟩
        · simp at h
  | dir cs =>
    simp only [processEntry] at h
    split at h
    · simp at h
      exact Or.inl h
    · simp at h

theorem processEntry_content_mode (A : Args) (hs : A.search_in_files = true)
    (hd : A.include_dirs = false) (path : List String) (name : String) (e : FSTree)
    (r : MatchResult) (h : r ∈ processEntry A path name e) :
    ∃ fd, e = FSTree.file fd ∧
      r = MatchResult.content path (search_in_file (strip_stars (matchPatternOf A)) fd) ∧
      (search_in_file (strip_stars (matchPatternOf A)) fd).isEmpty = false := by
  cases e with
  | file fd =>
    simp only [processEntry] at h
    split at h
    · simp at h
    · split at h
      · exact ⟨fd, rfl, contentAttempt_mem A path fd r h⟩
      · exact ⟨fd, rfl, contentAttempt_mem A path fd r h⟩
  | dir cs =>
    simp only [processEntry] at h
    split at h
    · rename_i hcond
      rw [hd] at hcond
      simp at hcond
    · simp at h

theorem processEntry_dir_content_mode (A : Args) (hd : A.include_dirs = false)
    (path : List String) (name : String) (cs : List (String × FSTree)) :
    processEntry A path name (FSTree.dir cs) = [] := by
  simp only [processEntry, hd]
  simp

mutual

theorem searchA_mem (A : Args) (max_depth : Int) (t : FSTree) (d : Int)
    (pfx : List String) (r : MatchResult) (h : r ∈ searchA A max_depth t d pfx) :
    ∃ path name e, r ∈ processEntry A path name e := by
  match t with
  | .file _ => simp [searchA] at h
  | .dir cs =>
    rw [searchA] at h
    split at h
    · simp at h
    · exact searchAEntries_mem A max_depth cs d pfx r h

theorem searchAEntries_mem (A : Args) (max_depth : Int) (cs : List (String × FSTree))
    (d : Int) (pfx : List String) (r : MatchResult)
    (h : r ∈ searchAEntries A max_depth cs d pfx) :
    ∃ path name e, r ∈ processEntry A path name e := by
  match cs with
  | [] => simp [searchAEntries] at h
  | (name, e) :: rest =>
    rw [searchAEntries] at h
    simp only [List.mem_append] at h
    rcases h with (h | h) | h
    · exact ⟨_, _, _, h⟩
    · split at h
      · exact searchA_mem A max_depth e (d + 1) (pfx ++ [name]) r h
      · simp at h
    · exact searchAEntries_mem A max_depth rest d pfx r h

end

/-! ### rglob paths are strictly below their root -/

mutual

theorem rglob_len (t : FSTree) (pfx : List String) (pe : List String × FSTree)
    (h : pe ∈ rglob t pfx) : pfx.length < pe.1.length := by
  match t with
  | .file _ => simp [rglob] at h
  | .dir cs =>
    rw [rglob] at h
    exact rglobEntries_len cs pfx pe h

theorem rglobEntries_len (cs : List (String × FSTree)) (pfx : List String)
    (pe : List String × FSTree) (h : pe ∈ rglobEntries cs pfx) :
    pfx.length < pe.1.length := by
  match cs with
  | [] => simp [rglobEntries] at h
  | (name, e) :: rest =>
    rw [rglobEntries] at h
    rcases List.mem_cons.1 h with h | h
    · subst h
      simp
    · rcases List.mem_append.1 h with h | h
      · have hlt := rglob_len e (pfx ++ [name]) pe h
        rw [List.length_append] at hlt
        omega
      · exact rglobEntries_len rest pfx pe h

end

/-! ### Resolving the depth filter of strategy B -/

theorem processB_within (A : Args) (bound : Int) (q : List String) (e : FSTree)
    (h : ¬ (q.length : Int) > bound) :
    processB A bound (q, e) = processEntry A q (q.getLastD "") e := by
  unfold processB
  rw [if_neg h]

theorem processB_beyond (A : Args) (bound : Int) (q : List String) (e : FSTree)
    (h : (q.length : Int) > bound) : processB A bound (q, e) = [] := by
  unfold processB
  rw [if_pos h]

/-! ### Strategy equivalence up to the depth shift

Strategy A with bound d visits exactly what strategy B with bound d + 1
processes, because B counts a direct child's relative depth as 1. -/

mutual

theorem equivTree (A : Args) (max_depth : Int) (t : FSTree) (pfx : List String)
    (hle : (pfx.length : Int) ≤ max_depth + 1) :
    searchA A max_depth t (pfx.length : Int) pfx =
      (rglob t pfx).flatMap (processB A (max_depth + 1)) := by
  match t with
  | .file _ => simp [searchA, rglob]
  | .dir cs =>
    rw [searchA, rglob]
    split
    · rename_i hgt
      symm
      rw [List.flatMap_eq_nil_iff]
      intro pe hpe
      have hlen := rglobEntries_len cs pfx pe hpe
      have hcast : (pfx.length : Int) < (pe.1.length : Int) := by exact_mod_cast hlen
      rw [show pe = (pe.1, pe.2) from rfl]
      exact processB_beyond A (max_depth + 1) pe.1 pe.2 (by omega)
    · rename_i hng
      exact equivEntries A max_depth cs pfx (by omega)

theorem equivEntries (A : Args) (max_depth : Int) (cs : List (String × FSTree))
    (pfx : List String) (hle : (pfx.length : Int) ≤ max_depth) :
    searchAEntries A max_depth cs (pfx.length : Int) pfx =
      (rglobEntries cs pfx).flatMap (processB A (max_depth + 1)) := by
  match cs with
  | [] => simp [searchAEntries, rglobEntries]
  | (name, e) :: rest =>
    have hlenN : (pfx ++ [name]).length = pfx.length + 1 := by simp
    have hrecT := equivTree A max_depth e (pfx ++ [name])
      (by rw [hlenN]; push_cast; omega)
    rw [hlenN] at hrecT
    push_cast at hrecT
    have hrecE := equivEntries A max_depth rest pfx hle
    have hmid : (if e.isDir then searchA A max_depth e ((pfx.length : Int) + 1) (pfx ++ [name]) else []) =
        (rglob e (pfx ++ [name])).flatMap (processB A (max_depth + 1)) := by
      rw [← hrecT]
      cases e with
      | file fd => simp [FSTree.isDir, searchA]
      | dir cs2 => simp [FSTree.isDir]
    have hB : ¬ ((pfx ++ [name]).length : Int) > max_depth + 1 := by
      rw [hlenN]; push_cast; omega
    rw [searchAEntries, rglobEntries, List.flatMap_cons,
      processB_within A (max_depth + 1) (pfx ++ [name]) e hB,
      List.getLastD_concat, List.flatMap_append, hmid, hrecE, List.append_assoc]

end

/-! ### The entries strategy A visits, as a depth filter over all paths -/

mutual

theorem visitedA_eq (max_depth : Int) (t : FSTree) (pfx : List String)
    (hle : (pfx.length : Int) ≤ max_depth + 1) :
    visitedA max_depth t (pfx.length : Int) pfx =
      ((rglob t pfx).filter (fun pe => !((pe.1.length : Int) > max_depth + 1))).map
        (fun pe => pe.1) := by
  match t with
  | .file _ => simp [visitedA, rglob]
  | .dir cs =>
    rw [visitedA, rglob]
    split
    · rename_i hgt
      symm
      have hnil : (rglobEntries cs pfx).filter
          (fun pe => !((pe.1.length : Int) > max_depth + 1)) = [] := by
        rw [List.filter_eq_nil_iff]
        intro pe hpe
        have hlen := rglobEntries_len cs pfx pe hpe
        have hcast : (pfx.length : Int) < (pe.1.length : Int) := by exact_mod_cast hlen
        simp only [Bool.not_eq_true', decide_eq_false_iff_not, not_not]
        omega
      rw [hnil, List.map_nil]
    · rename_i hng
      exact visitedAEntries_eq max_depth cs pfx (by omega)

theorem visitedAEntries_eq (max_depth : Int) (cs : List (String × FSTree))
    (pfx : List String) (hle : (pfx.length : Int) ≤ max_depth) :
    visitedAEntries max_depth cs (pfx.length : Int) pfx =
      ((rglobEntries cs pfx).filter (fun pe => !((pe.1.length : Int) > max_depth + 1))).map
        (fun pe => pe.1) := by
  match cs with
  | [] => simp [visitedAEntries, rglobEntries]
  | (name, e) :: rest =>
    have hlenN : (pfx ++ [name]).length = pfx.length + 1 := by simp
    have hrecT := visitedA_eq max_depth e (pfx ++ [name])
      (by rw [hlenN]; push_cast; omega)
    rw [hlenN] at hrecT
    push_cast at hrecT
    have hrecE := visitedAEntries_eq max_depth rest pfx hle
    have hmid : (if e.isDir then visitedA max_depth e ((pfx.length : Int) + 1) (pfx ++ [name]) else []) =
        ((rglob e (pfx ++ [name])).filter
          (fun pe => !((pe.1.length : Int) > max_depth + 1))).map (fun pe => pe.1) := by
      rw [← hrecT]
      cases e with
      | file fd => simp [FSTree.isDir, visitedA]
      | dir cs2 => simp [FSTree.isDir]
    have hcond : (fun pe : List String × FSTree =>
        !((pe.1.length : Int) > max_depth + 1)) (pfx ++ [name], e) = true := by
      simp only [Bool.not_eq_true', decide_eq_false_iff_not, not_lt, hlenN]
      push_cast
      omega
    rw [visitedAEntries, rglobEntries, List.filter_cons, if_pos hcond, List.map_cons,
      List.filter_append, List.map_append, hmid, hrecE]

end

theorem mem_pathFilter (l : List (List String × FSTree)) (bound : Int) (q : List String) :
    q ∈ (l.filter (fun pe => !((pe.1.length : Int) > bound))).map (fun pe => pe.1) ↔
      q ∈ l.map (fun pe => pe.1) ∧ (q.length : Int) ≤ bound := by
  simp only [List.mem_map, List.mem_filter]
  constructor
  · rintro ⟨pe, ⟨hpe, hb⟩, rfl⟩
    refine ⟨⟨pe, hpe, rfl⟩, ?_⟩
    simp only [Bool.not_eq_true', decide_eq_false_iff_not, not_lt] at hb
    exact hb
  · rintro ⟨⟨pe, hpe, rfl⟩, hq⟩
    refine ⟨pe, ⟨hpe, ?_⟩, rfl⟩
    simp only [Bool.not_eq_true', decide_eq_false_iff_not, not_lt]
    exact hq

/-! ### The empty pattern matches everything -/

theorem substrIn_nil (l : List Char) : substrIn [] l = true := by
  cases l with
  | nil => rfl
  | cons c t => rfl

theorem matches_name_empty (name : String) (b : Bool) : matches_name name "" b = true := by
  unfold matches_name
  rw [if_neg (show ¬ hasWildcard "" = true by decide)]
  have h1 : (foldCI b "").data = [] := by cases b <;> rfl
  rw [h1]
  exact substrIn_nil _

theorem processEntry_empty (A : Args) (hp : A.pattern = "") (hs : A.search_in_files = false)
    (hd : A.include_dirs = true) (hi : A.include_patterns = [])
    (path : List String) (name : String) (e : FSTree) :
    processEntry A path name e = [MatchResult.plain path] := by
  cases e with
  | file fd =>
    simp [processEntry, hi, hp, hs, matches_include_pattern, matches_name_empty]
  | dir cs =>
    simp [processEntry, hp, hd, matches_name_empty]

mutual

theorem searchA_empty (A : Args) (hp : A.pattern = "") (hs : A.search_in_files = false)
    (hd : A.include_dirs = true) (hi : A.include_patterns = [])
    (max_depth : Int) (t : FSTree) (d : Int) (pfx : List String) :
    searchA A max_depth t d pfx = (visitedA max_depth t d pfx).map MatchResult.plain := by
  match t with
  | .file _ => simp [searchA, visitedA]
  | .dir cs =>
    rw [searchA, visitedA]
    split
    · rfl
    · exact searchAEntries_empty A hp hs hd hi max_depth cs d pfx

theorem searchAEntries_empty (A : Args) (hp : A.pattern = "")
    (hs : A.search_in_files = false) (hd : A.include_dirs = true)
    (hi : A.include_patterns = []) (max_depth : Int) (cs : List (String × FSTree))
    (d : Int) (pfx : List String) :
    searchAEntries A max_depth cs d pfx =
      (visitedAEntries max_depth cs d pfx).map MatchResult.plain := by
  match cs with
  | [] => simp [searchAEntries, visitedAEntries]
  | (name, e) :: rest =>
    have hrec := searchA_empty A hp hs hd hi max_depth e (d + 1) (pfx ++ [name])
    have hmid : (if e.isDir then searchA A max_depth e (d + 1) (pfx ++ [name]) else []) =
        ((if e.isDir then visitedA max_depth e (d + 1) (pfx ++ [name]) else [])).map
          MatchResult.plain := by
      cases e with
      | file fd => simp [FSTree.isDir]
      | dir cs2 => simpa [FSTree.isDir] using hrec
    rw [searchAEntries, visitedAEntries, processEntry_empty A hp hs hd hi,
      List.map_cons, List.map_append, hmid,
      searchAEntries_empty A hp hs hd hi max_depth rest d pfx]
    simp [List.append_assoc]

end

/-! ### Inverting a successful traversal call -/

theorem fast_find_ok (base_dir : Option FSTree) (pattern : String) (max_depth : Int)
    (a b c : Bool) (ip : String) (res : List MatchResult)
    (h : fast_find base_dir pattern max_depth a b c ip = Except.ok res) :
    ∃ t, base_dir = some t ∧
      res = searchA ⟨pattern, if c then false else a, b, c, parse_include_patterns ip b⟩
        max_depth t 0 [] := by
  cases base_dir with
  | none => simp [fast_find] at h
  | some t =>
    simp only [fast_find] at h
    split at h
    · simp at h
    · split at h
      · simp at h
      · simp only [Except.ok.injEq] at h
        exact ⟨t, rfl, h.symm⟩

theorem find_with_depth_ok (base_dir : Option FSTree) (pattern : String) (max_depth : Int)
    (a b c : Bool) (ip : String) (res : List MatchResult)
    (h : find_with_depth base_dir pattern max_depth a b c ip = Except.ok res) :
    ∃ t, base_dir = some t ∧
      res = (rglob t []).flatMap
        (processB ⟨pattern, if c then false else a, b, c, parse_include_patterns ip b⟩
          max_depth) := by
  cases base_dir with
  | none => simp [find_with_depth] at h
  | some t =>
    simp only [find_with_depth] at h
    split at h
    · simp at h
    · simp only [Except.ok.injEq] at h
      exact ⟨t, rfl, h.symm⟩

theorem processB_mem (A : Args) (bound : Int) (pe : List String × FSTree) (r : MatchResult)
    (h : r ∈ processB A bound pe) : r ∈ processEntry A pe.1 (pe.1.getLastD "") pe.2 := by
  unfold processB at h
  split at h
  · simp at h
  · exact h

/-! ### fnmatch agrees with the specification's wildcard semantics on
bracket-free patterns -/

theorem globMatch_nil (ns : List Char) : globMatch [] ns = ns.isEmpty := by
  rw [globMatch.eq_def]

theorem globMatch_cons (c : Char) (ps ns : List Char) :
    globMatch (c :: ps) ns =
      if c = '*' then
        globMatch ps ns ||
          (match ns with
           | [] => false
           | _ :: nt => globMatch (c :: ps) nt)
      else if c = '?' then
        (match ns with
         | [] => false
         | _ :: nt => globMatch ps nt)
      else if c = '[' then
        (match splitBracket ps with
         | none =>
           (match ns with
            | c' :: nt => (c = c') && globMatch ps nt
            | [] => false)
         | some sr =>
           (match ns with
            | [] => false
            | c' :: nt => bracketMatch c' sr.1 && globMatch sr.2 nt))
      else
        (match ns with
         | [] => false
         | c' :: nt => (c = c') && globMatch ps nt) := by
  rw [globMatch.eq_def]

theorem globMatch_sound : ∀ (N : Nat) (p n : List Char), p.length + n.length ≤ N →
    '[' ∉ p → globMatch p n = true → WildMatches p n := by
  intro N
  induction N with
  | zero =>
    intro p n hN hbr h
    match p, n with
    | [], [] => exact WildMatches.nil
    | [], _ :: _ => simp at hN
    | _ :: _, _ => simp at hN
  | succ N ih =>
    intro p n hN hbr h
    match p with
    | [] =>
      match n with
      | [] => exact WildMatches.nil
      | x :: nt => rw [globMatch_nil] at h; simp at h
    | c :: ps =>
      have hbr' : '[' ∉ ps := fun hm => hbr (List.mem_cons_of_mem c hm)
      have hcbr : c ≠ '[' := fun hc => hbr (hc ▸ List.mem_cons_self c ps)
      by_cases hstar : c = '*'
      · subst hstar
        rw [globMatch_cons, if_pos rfl] at h
        rw [Bool.or_eq_true] at h
        rcases h with h1 | h2
        · exact WildMatches.starEmpty (ih ps n (by simp at hN ⊢; omega) hbr' h1)
        · match n with
          | [] => simp at h2
          | x :: nt =>
            exact WildMatches.starCons x
              (ih ('*' :: ps) nt (by simp at hN ⊢; omega) hbr h2)
      · by_cases hq : c = '?'
        · subst hq
          rw [globMatch_cons, if_neg (by decide), if_pos rfl] at h
          match n with
          | [] => simp at h
          | x :: nt =>
            exact WildMatches.one x (ih ps nt (by simp at hN ⊢; omega) hbr' h)
        · rw [globMatch_cons, if_neg hstar, if_neg hq, if_neg hcbr] at h
          match n with
          | [] => simp at h
          | x :: nt =>
            rw [Bool.and_eq_true] at h
            obtain ⟨hcx, hrest⟩ := h
            have hcx' : c = x := of_decide_eq_true hcx
            subst hcx'
            exact WildMatches.lit c hstar hq
              (ih ps nt (by simp at hN ⊢; omega) hbr' hrest)

theorem globMatch_complete : ∀ {p n : List Char}, WildMatches p n → '[' ∉ p →
    globMatch p n = true := by
  intro p n hw
  induction hw with
  | nil => intro; rw [globMatch_nil]; rfl
  | lit c hc1 hc2 _ ih =>
    intro hbr
    have hcbr : c ≠ '[' := fun hc => hbr (hc ▸ List.mem_cons_self _ _)
    have hbr' := fun hm => hbr (List.mem_cons_of_mem c hm)
    rw [globMatch_cons, if_neg hc1, if_neg hc2, if_neg hcbr]
    simp [ih hbr']
  | one c _ ih =>
    intro hbr
    have hbr' := fun hm => hbr (List.mem_cons_of_mem '?' hm)
    rw [globMatch_cons, if_neg (by decide), if_pos rfl]
    exact ih hbr'
  | starEmpty _ ih =>
    intro hbr
    have hbr' := fun hm => hbr (List.mem_cons_of_mem '*' hm)
    rw [globMatch_cons, if_pos rfl]
    simp [ih hbr']
  | starCons c _ ih =>
    intro hbr
    rw [globMatch_cons, if_pos rfl]
    simp only [Bool.or_eq_true]
    right
    exact ih hbr

theorem globMatch_iff_wild (p n : List Char) (hbr : '[' ∉ p) :
    globMatch p n = true ↔ WildMatches p n :=
  ⟨fun h => globMatch_sound (p.length + n.length) p n le_rfl hbr h,
   fun h => globMatch_complete h hbr⟩

/-! ### Case folding cannot introduce a bracket -/

theorem toLowerCh_bracket (c : Char) (h : toLowerCh c = '[') : c = '[' := by
  unfold toLowerCh at h
  split at h
  · rename_i hAZ
    exfalso
    obtain ⟨h1, h2⟩ := hAZ
    rw [Char.le_def] at h1 h2
    have hn1 : 65 ≤ c.toNat := h1
    have hn2 : c.toNat ≤ 90 := h2
    have hvalid : (c.toNat + 32).isValidChar := Or.inl (by omega)
    have hval : (Char.ofNat (c.toNat + 32)).toNat = c.toNat + 32 := by
      rw [Char.ofNat, dif_pos hvalid]
      rfl
    rw [h] at hval
    have hbr : ('[' : Char).toNat = 91 := by decide
    omega
  · exact h

theorem foldCI_no_bracket (b : Bool) (s : String) (h : '[' ∉ s.data) :
    '[' ∉ (foldCI b s).data := by
  cases b with
  | false => exact h
  | true =>
    intro hm
    have hm' : '[' ∈ s.data.map toLowerCh := hm
    obtain ⟨c, hc, he⟩ := List.mem_map.1 hm'
    exact h (toLowerCh_bracket c he ▸ hc)

theorem fast_find_dir (cs : List (String × FSTree)) (pattern : String)
    (max_depth : Int) (a b c : Bool) (ip : String) (h : ¬ max_depth < 0) :
    fast_find (some (FSTree.dir cs)) pattern max_depth a b c ip =
      Except.ok (searchA ⟨pattern, if c then false else a, b, c,
        parse_include_patterns ip b⟩ max_depth (FSTree.dir cs) 0 []) := by
  simp only [fast_find, FSTree.isDir, Bool.not_true]
  rw [if_neg (by simp), if_neg h]

theorem find_with_depth_some (t : FSTree) (pattern : String) (max_depth : Int)
    (a b c : Bool) (ip : String) (h : ¬ max_depth < 0) :
    find_with_depth (some t) pattern max_depth a b c ip =
      Except.ok ((rglob t []).flatMap (processB ⟨pattern, if c then false else a, b, c,
        parse_include_patterns ip b⟩ max_depth)) := by
  simp only [find_with_depth]
  rw [if_neg h]

/-! ## Claims -/

/-- C3 counterexample: with an existing non-directory base_dir,
find_with_depth does not fail with a SearchError at all — it returns an
empty result list, while fast_find raises NotADirectory.  The claim
that both strategies fail with NotADirectory is therefore false. -/
theorem c3_counterexample :
    find_with_depth (some (FSTree.file fileHi)) "x" 0 true false false "" =
      Except.ok [] ∧
    fast_find (some (FSTree.file fileHi)) "x" 0 true false false "" =
      Except.error SearchErrorKind.notADirectory :=
  ⟨rfl, rfl⟩

/-- C3 amended: for a base_dir that exists but is a file, fast_find
fails with SearchError NotADirectory; find_with_depth performs no
is-directory check and (for a validated depth) returns the empty result
list, because rglob on a file yields nothing. -/
theorem c3_not_a_directory (d : FileData) (pattern : String) (max_depth : Int)
    (a b c : Bool) (ip : String) :
    fast_find (some (FSTree.file d)) pattern max_depth a b c ip =
      Except.error SearchErrorKind.notADirectory ∧
    (0 ≤ max_depth →
      find_with_depth (some (FSTree.file d)) pattern max_depth a b c ip =
        Except.ok []) := by
  constructor
  · rfl
  · intro h
    simp only [find_with_depth]
    rw [if_neg (by omega)]
    simp [rglob]

/-- C3 witness: the amended statement at a concrete file base_dir. -/
theorem c3_witness :
    fast_find (some (FSTree.file fileHi)) "a" 1 true true false "" =
      Except.error SearchErrorKind.notADirectory ∧
    find_with_depth (some (FSTree.file fileHi)) "a" 1 true true false "" =
      Except.ok [] :=
  ⟨(c3_not_a_directory fileHi "a" 1 true true false "").1,
   (c3_not_a_directory fileHi "a" 1 true true false "").2 (by decide)⟩

/-- C4 counterexample: with max_depth = -1 and a nonexistent base_dir,
fast_find raises NotFound, not InvalidArgument — the existence check (a
filesystem access) runs before the depth check, so the claim that a
negative depth fails with InvalidArgument before any filesystem access
is false for the traversal functions.  With an existing directory the
same call raises InvalidArgument, showing the outcome depends on the
filesystem state. -/
theorem c4_counterexample :
    fast_find none "x" (-1) true false false "" =
      Except.error SearchErrorKind.notFound ∧
    SearchErrorKind.notFound ≠ SearchErrorKind.invalidArgument ∧
    fast_find (some treeOne) "x" (-1) true false false "" =
      Except.error SearchErrorKind.invalidArgument :=
  ⟨rfl, by decide, rfl⟩

/-- C4 amended: the CLI validation in main() checks the depth flag
first, so with a negative depth it reports the invalid-depth error
regardless of the filesystem (before any filesystem access); inside the
traversal functions a negative max_depth raises InvalidArgument only
after the existence (and for fast_find is-directory) checks pass. -/
theorem c4_invalid_argument :
    (∀ (deep : Int) (b1 b2 : Option FSTree), deep < 0 →
      main_validate deep b1 = CliOutcome.invalidDeep ∧
      main_validate deep b1 = main_validate deep b2) ∧
    (∀ (cs : List (String × FSTree)) (pattern : String) (max_depth : Int)
      (a b c : Bool) (ip : String), max_depth < 0 →
      fast_find (some (FSTree.dir cs)) pattern max_depth a b c ip =
        Except.error SearchErrorKind.invalidArgument) ∧
    (∀ (t : FSTree) (pattern : String) (max_depth : Int) (a b c : Bool)
      (ip : String), max_depth < 0 →
      find_with_depth (some t) pattern max_depth a b c ip =
        Except.error SearchErrorKind.invalidArgument) := by
  refine ⟨?_, ?_, ?_⟩
  · intro deep b1 b2 hneg
    constructor
    · unfold main_validate
      rw [if_pos hneg]
    · unfold main_validate
      rw [if_pos hneg, if_pos hneg]
  · intro cs pattern max_depth a b c ip hneg
    simp only [fast_find, FSTree.isDir, Bool.not_true]
    rw [if_neg (by simp), if_pos hneg]
  · intro t pattern max_depth a b c ip hneg
    simp only [find_with_depth]
    rw [if_pos hneg]

/-- C4 witness: the amended statement at concrete inputs. -/
theorem c4_witness :
    (main_validate (-1) none = CliOutcome.invalidDeep ∧
      main_validate (-1) none = main_validate (-1) (some treeOne)) ∧
    fast_find (some treeOne) "x" (-2) true false false "" =
      Except.error SearchErrorKind.invalidArgument ∧
    find_with_depth (some treeOne) "x" (-2) true false false "" =
      Except.error SearchErrorKind.invalidArgument :=
  ⟨c4_invalid_argument.1 (-1) none (some treeOne) (by decide),
   c4_invalid_argument.2.1 [("a.txt", FSTree.file fileHi)] "x" (-2) true false false ""
     (by decide),
   c4_invalid_argument.2.2 treeOne "x" (-2) true false false "" (by decide)⟩

/-- C6: is_binary_file returns true when the leading sample contains a
null byte, true when the sample is not valid UTF-8, false for a
pure-ASCII null-free sample, and true (without raising) whenever the
file cannot be opened or read. -/
theorem c6_binary_classifier (chunk : List Nat) (L : Option (List String)) :
    (0 ∈ chunk → is_binary_file ⟨some chunk, L⟩ = true) ∧
    (validUtf8 chunk = false → is_binary_file ⟨some chunk, L⟩ = true) ∧
    ((∀ b ∈ chunk, b ≤ 127 ∧ b ≠ 0) → is_binary_file ⟨some chunk, L⟩ = false) ∧
    is_binary_file ⟨none, L⟩ = true := by
  refine ⟨?_, ?_, ?_, rfl⟩
  · intro h0
    simp [is_binary_file, h0]
  · intro hv
    simp only [is_binary_file]
    split
    · rfl
    · rw [hv]
      rfl
  · intro hA
    have h0 : 0 ∉ chunk := fun hmem => ((hA 0 hmem).2 rfl)
    have hv : validUtf8 chunk = true := validUtf8_ascii chunk (fun b hb => (hA b hb).1)
    simp [is_binary_file, h0, hv]

/-- C6 witness: the classifier evaluated on a null sample, an invalid
UTF-8 sample, a pure-ASCII sample and an unreadable file. -/
theorem c6_witness :
    is_binary_file ⟨some [104, 0], none⟩ = true ∧
    is_binary_file ⟨some [195, 40], none⟩ = true ∧
    is_binary_file ⟨some [104, 105], none⟩ = false ∧
    is_binary_file ⟨none, none⟩ = true :=
  ⟨(c6_binary_classifier [104, 0] none).1 (by decide),
   (c6_binary_classifier [195, 40] none).2.1 (by decide),
   (c6_binary_classifier [104, 105] none).2.2.1 (by decide),
   (c6_binary_classifier [] none).2.2.2⟩

/-- C7: read_file_lines keeps exactly the readable file's own lines
that are within the length bound (long lines are dropped whole, the
rest of the file still processed), an I/O or decode failure yields the
empty list, and consequently no line longer than MAX_LINE_LENGTH ever
appears in a content-match result of either traversal strategy. -/
theorem c7_long_lines_dropped (f : FileData) (m : Nat) (l : String) :
    (l ∈ read_file_lines f m ↔
      is_binary_file f = false ∧ ∃ ls, f.lines = some ls ∧ l ∈ ls ∧ l.length ≤ m) ∧
    (f.lines = none → read_file_lines f m = []) ∧
    (∀ base pattern max_depth a b c ip res q fnd il,
      fast_find base pattern max_depth a b c ip = Except.ok res →
      MatchResult.content q fnd ∈ res → il ∈ fnd → il.2.length ≤ MAX_LINE_LENGTH) ∧
    (∀ base pattern max_depth a b c ip res q fnd il,
      find_with_depth base pattern max_depth a b c ip = Except.ok res →
      MatchResult.content q fnd ∈ res → il ∈ fnd → il.2.length ≤ MAX_LINE_LENGTH) := by
  refine ⟨mem_read_file_lines f m l, ?_, ?_, ?_⟩
  · intro hn
    simp [read_file_lines, hn]
  · intro base pattern max_depth a b c ip res q fnd il hok hmem hil
    obtain ⟨t, -, rfl⟩ := fast_find_ok base pattern max_depth a b c ip res hok
    obtain ⟨path, nm, e, hpe⟩ := searchA_mem _ _ _ _ _ _ hmem
    rcases processEntry_mem _ _ _ _ _ hpe with hplain | ⟨fd, -, hcontent, -⟩
    · simp at hplain
    · rw [MatchResult.content.injEq] at hcontent
      obtain ⟨-, rfl⟩ := hcontent
      exact (search_in_file_mem _ fd il hil).2
  · intro base pattern max_depth a b c ip res q fnd il hok hmem hil
    obtain ⟨t, -, rfl⟩ := find_with_depth_ok base pattern max_depth a b c ip res hok
    obtain ⟨pe, -, hproc⟩ := List.mem_flatMap.1 hmem
    have hpe := processB_mem _ _ _ _ hproc
    rcases processEntry_mem _ _ _ _ _ hpe with hplain | ⟨fd, -, hcontent, -⟩
    · simp at hplain
    · rw [MatchResult.content.injEq] at hcontent
      obtain ⟨-, rfl⟩ := hcontent
      exact (search_in_file_mem _ fd il hil).2

/-- C7 witness: the line reader on a failed read, and the length bound
on a concrete content-match result. -/
theorem c7_witness :
    read_file_lines ⟨some [104], none⟩ 5 = [] ∧
    ((1 : Nat), "# TODO fix\n").2.length ≤ MAX_LINE_LENGTH :=
  ⟨(c7_long_lines_dropped ⟨some [104], none⟩ 5 "x").2.1 rfl,
   (c7_long_lines_dropped ⟨some [104], none⟩ 5 "x").2.2.1 (some treeTodo) "TODO" 0
     true false true "" [MatchResult.content ["a.py"] [(1, "# TODO fix\n")]]
     ["a.py"] [(1, "# TODO fix\n")] (1, "# TODO fix\n") rfl (by simp) (by simp)⟩

/-- C1 counterexample: on a tree with a single file and max_depth = 0,
fast_find returns that file while find_with_depth returns nothing
(direct children have relative_depth 1 there), so the two strategies do
not return the same set of matched paths for identical inputs. -/
theorem c1_counterexample :
    fast_find (some treeOne) "" 0 true false false "" =
      Except.ok [MatchResult.plain ["a.txt"]] ∧
    find_with_depth (some treeOne) "" 0 true false false "" = Except.ok [] ∧
    ¬ ([MatchResult.plain ["a.txt"]].Perm ([] : List MatchResult)) := by
  refine ⟨rfl, rfl, ?_⟩
  intro hperm
  simpa using hperm.length_eq

/-- C1 amended: on a directory base with no symbolic links, fast_find
with bound max_depth returns exactly the results find_with_depth
returns with bound max_depth + 1: strategy B counts a direct child's
depth as 1, so the strategies agree only up to this depth shift. -/
theorem c1_strategy_shift (cs : List (String × FSTree)) (pattern : String)
    (max_depth : Int) (a b c : Bool) (ip : String) (h : 0 ≤ max_depth) :
    fast_find (some (FSTree.dir cs)) pattern max_depth a b c ip =
      find_with_depth (some (FSTree.dir cs)) pattern (max_depth + 1) a b c ip := by
  rw [fast_find_dir cs pattern max_depth a b c ip (by omega),
    find_with_depth_some (FSTree.dir cs) pattern (max_depth + 1) a b c ip (by omega)]
  congr 1
  have heq := equivTree ⟨pattern, if c then false else a, b, c,
    parse_include_patterns ip b⟩ max_depth (FSTree.dir cs) [] (by simp; omega)
  simp only [List.length_nil, Nat.cast_zero] at heq
  exact heq

/-- C1 witness: the depth-shifted equivalence at a concrete tree. -/
theorem c1_witness :
    fast_find (some treeOne) "" 0 true false false "" =
      find_with_depth (some treeOne) "" 1 true false false "" :=
  c1_strategy_shift [("a.txt", FSTree.file fileHi)] "" 0 true false false ""
    (by decide)

/-- C2 counterexample: ["a.txt"] sits at depth 0 (direct child) of a
tree, yet with max_depth = 0 strategy B does not visit it, so the
claimed characterisation "visited iff depth <= max_depth" fails for
find_with_depth. -/
theorem c2_counterexample :
    ¬ ((["a.txt"] : List String) ∈ visitedB 0 treeOne ↔
      ["a.txt"] ∈ allPaths treeOne ∧ ((["a.txt"] : List String).length : Int) - 1 ≤ 0) := by
  decide

/-- C2 amended: writing depth q = (number of path components of q) - 1,
so that direct children have depth 0, strategy A visits and considers
an entry iff depth <= max_depth, while strategy B visits it iff
depth <= max_depth - 1 (its relative_depth counts direct children as 1). -/
theorem c2_visitation (max_depth : Int) (t : FSTree) (q : List String) :
    (q ∈ visitedA max_depth t 0 [] ↔
      q ∈ allPaths t ∧ (q.length : Int) - 1 ≤ max_depth) ∧
    (q ∈ visitedB max_depth t ↔
      q ∈ allPaths t ∧ (q.length : Int) - 1 ≤ max_depth - 1) := by
  constructor
  · by_cases hc : 0 ≤ max_depth + 1
    · have h := visitedA_eq max_depth t [] (by simpa using hc)
      simp only [List.length_nil, Nat.cast_zero] at h
      rw [h, mem_pathFilter]
      unfold allPaths
      constructor
      · rintro ⟨hm, hlen⟩
        exact ⟨hm, by omega⟩
      · rintro ⟨hm, hlen⟩
        exact ⟨hm, by omega⟩
    · constructor
      · intro hmem
        exfalso
        cases t with
        | file _ => simp [visitedA] at hmem
        | dir cs =>
          rw [visitedA, if_pos (by omega)] at hmem
          simp at hmem
      · rintro ⟨hm, hlen⟩
        exfalso
        unfold allPaths at hm
        obtain ⟨pe, hpe, rfl⟩ := List.mem_map.1 hm
        have hlt := rglob_len t [] pe hpe
        simp at hlt
        omega
  · unfold visitedB allPaths
    rw [mem_pathFilter]
    constructor
    · rintro ⟨hm, hlen⟩
      exact ⟨hm, by omega⟩
    · rintro ⟨hm, hlen⟩
      exact ⟨hm, by omega⟩

/-- C10: the empty pattern contains no wildcard character, so the
substring rule applies and it matches every name; consequently a search
with empty pattern, no include filter, directories included and content
search off returns a plain match for every visited entry. -/
theorem c10_empty_pattern :
    (∀ (name : String) (b : Bool), matches_name name "" b = true) ∧
    (∀ (cs : List (String × FSTree)) (max_depth : Int) (b : Bool), 0 ≤ max_depth →
      fast_find (some (FSTree.dir cs)) "" max_depth true b false "" =
        Except.ok ((visitedA max_depth (FSTree.dir cs) 0 []).map MatchResult.plain)) := by
  constructor
  · exact matches_name_empty
  · intro cs max_depth b h
    simp only [fast_find, FSTree.isDir, Bool.not_true]
    rw [if_neg (by simp), if_neg (by omega)]
    congr 1
    exact searchA_empty _ rfl rfl rfl rfl max_depth (FSTree.dir cs) 0 []

/-- C10 witness: the empty pattern matching a concrete name, and the
full-visit search on a concrete tree. -/
theorem c10_witness :
    matches_name "zz" "" true = true ∧
    fast_find (some treeOne) "" 0 true false false "" =
      Except.ok ((visitedA 0 treeOne 0 []).map MatchResult.plain) :=
  ⟨c10_empty_pattern.1 "zz" true,
   c10_empty_pattern.2 [("a.txt", FSTree.file fileHi)] 0 false (by decide)⟩

/-- C5 counterexample: the string handed to search_in_file is the match
pattern with only '*' removed — a '?' survives.  With pattern "a?b" in
content mode the file line "xa?by" is reported as a match (the query
kept its '?'), although under the claimed both-wildcards-stripped query
"ab" that line contains no occurrence. -/
theorem c5_counterexample :
    strip_stars "a?b" = "a?b" ∧
    ("a?b" : String).data.contains '?' = true ∧
    fast_find (some treeQm) "a?b" 0 true false true "" =
      Except.ok [MatchResult.content ["f.txt"] [(0, "xa?by")]] ∧
    substrIn ("ab" : String).data ("xa?by" : String).data = false := by
  refine ⟨rfl, rfl, ?_, rfl⟩
  have hw : hasWildcard "a?b" = true := by decide
  have hmn : matches_name "f.txt" "a?b" false = false := by
    simp [matches_name, hw, fnmatch, foldCI, globMatch_cons]
  have hip : parse_include_patterns "" false = [] := rfl
  have hinc : matches_include_pattern "f.txt" [] false = true := rfl
  have hsif : search_in_file (strip_stars "a?b") fileQm = [(0, "xa?by")] := rfl
  rw [show (some treeQm : Option FSTree) =
    some (FSTree.dir [("f.txt", FSTree.file fileQm)]) from rfl]
  rw [fast_find_dir [("f.txt", FSTree.file fileQm)] "a?b" 0 true false true ""
    (by omega)]
  rw [searchA, if_neg (by omega), searchAEntries, searchAEntries]
  simp [processEntry, hmn, hinc, hip, FSTree.isDir, contentAttempt, matchPatternOf,
    foldCI, hsif]

/-- C5 amended: the content-search query is the (possibly case-folded)
pattern with every '*' removed and nothing else: it never contains '*',
but it can retain '?'; every line of every content-match result of
either strategy contains that star-stripped query as a substring. -/
theorem c5_content_query (pattern : String) (b : Bool) :
    ((strip_stars (foldCI b pattern)).data =
      (foldCI b pattern).data.filter (fun ch => ch ≠ '*') ∧
      '*' ∉ (strip_stars (foldCI b pattern)).data) ∧
    (∀ base max_depth a c ip res q fnd il,
      fast_find base pattern max_depth a b c ip = Except.ok res →
      MatchResult.content q fnd ∈ res → il ∈ fnd →
      substrIn (strip_stars (foldCI b pattern)).data il.2.data = true) ∧
    (∀ base max_depth a c ip res q fnd il,
      find_with_depth base pattern max_depth a b c ip = Except.ok res →
      MatchResult.content q fnd ∈ res → il ∈ fnd →
      substrIn (strip_stars (foldCI b pattern)).data il.2.data = true) := by
  refine ⟨⟨rfl, ?_⟩, ?_, ?_⟩
  · intro hm
    have hm' : '*' ∈ (foldCI b pattern).data.filter (fun ch => ch ≠ '*') := hm
    rw [List.mem_filter] at hm'
    simp at hm'
  · intro base max_depth a c ip res q fnd il hok hmem hil
    obtain ⟨t, -, rfl⟩ := fast_find_ok base pattern max_depth a b c ip res hok
    obtain ⟨path, nm, e, hpe⟩ := searchA_mem _ _ _ _ _ _ hmem
    rcases processEntry_mem _ _ _ _ _ hpe with hplain | ⟨fd, -, hcontent, -⟩
    · simp at hplain
    · rw [MatchResult.content.injEq] at hcontent
      obtain ⟨-, rfl⟩ := hcontent
      exact (search_in_file_mem _ fd il hil).1
  · intro base max_depth a c ip res q fnd il hok hmem hil
    obtain ⟨t, -, rfl⟩ := find_with_depth_ok base pattern max_depth a b c ip res hok
    obtain ⟨pe, -, hproc⟩ := List.mem_flatMap.1 hmem
    have hpe := processB_mem _ _ _ _ hproc
    rcases processEntry_mem _ _ _ _ _ hpe with hplain | ⟨fd, -, hcontent, -⟩
    · simp at hplain
    · rw [MatchResult.content.injEq] at hcontent
      obtain ⟨-, rfl⟩ := hcontent
      exact (search_in_file_mem _ fd il hil).1

/-- C5 witness: the amended statement on a concrete content search. -/
theorem c5_witness :
    substrIn (strip_stars (foldCI false "TODO")).data ("# TODO fix\n" : String).data =
      true :=
  (c5_content_query "TODO" false).2.1 (some treeTodo) 0 true true ""
    [MatchResult.content ["a.py"] [(1, "# TODO fix\n")]] ["a.py"]
    [(1, "# TODO fix\n")] (1, "# TODO fix\n") rfl (by simp) (by simp)

/-- C8 counterexample: fnmatch interprets bracket expressions, so the
wildcard rule is not the pure star/question-mark semantics the claim
states: the name "xa" matches the pattern "*[ab]" under the code's
matcher, but not under anchored matching where '*' and '?' are the only
special characters and '[' stands for itself. -/
theorem c8_counterexample :
    matches_name "xa" "*[ab]" false = true ∧
    ¬ WildMatches ("*[ab]" : String).data ("xa" : String).data := by
  constructor
  · have hw : hasWildcard "*[ab]" = true := by decide
    have hsp2 : splitBracket ['a', 'b', ']'] = some (['a', 'b'], []) := rfl
    have hb1 : bracketMatch 'x' ['a', 'b'] = false := rfl
    have hb2 : bracketMatch 'a' ['a', 'b'] = true := rfl
    simp [matches_name, hw, fnmatch, foldCI, globMatch_cons, globMatch_nil,
      hsp2, hb1, hb2]
  · have hstar : ∀ ns, (∀ x ∈ ns, x ≠ '[') →
        ¬ WildMatches ('*' :: '[' :: 'a' :: 'b' :: ']' :: []) ns := by
      intro ns
      induction ns with
      | nil =>
        intro _ hw
        cases hw with
        | starEmpty h2 => cases h2
      | cons x nt ih =>
        intro hnb hw
        cases hw with
        | lit c hc1 hc2 h3 => exact absurd rfl hc1
        | starEmpty h2 =>
          cases h2 with
          | lit c hc1 hc2 h3 => exact hnb _ (List.mem_cons_self _ _) rfl
        | starCons c h2 =>
          exact ih (fun y hy => hnb y (List.mem_cons_of_mem x hy)) h2
    intro hw
    exact hstar ('x' :: 'a' :: []) (by decide) hw

/-- C8 amended: for every pattern containing no bracket character '[',
matches_name works exactly as the claim says: if the pattern contains
'*' or '?' it is matched anchored against the whole name with '*' = any
run and '?' = exactly one character (the specification's WildMatches
relation), otherwise it matches iff it occurs as a substring; name and
pattern are first lower-cased when case-insensitive. -/
theorem c8_name_matching (name pat : String) (b : Bool) (hbr : '[' ∉ pat.data) :
    (hasWildcard pat = true →
      (matches_name name pat b = true ↔
        WildMatches (foldCI b pat).data (foldCI b name).data)) ∧
    (hasWildcard pat = false →
      (matches_name name pat b = true ↔
        (foldCI b pat).data <:+: (foldCI b name).data)) := by
  constructor
  · intro hw
    simp only [matches_name, hw, if_true]
    unfold fnmatch
    exact globMatch_iff_wild _ _ (foldCI_no_bracket b pat hbr)
  · intro hnw
    simp only [matches_name, hnw, Bool.false_eq_true, if_false]
    exact substrIn_iff _ _

/-- C8 witness: the amended statement for a concrete wildcard pattern. -/
theorem c8_witness :
    matches_name "a.py" "*.py" false = true ↔
      WildMatches (foldCI false "*.py").data (foldCI false "a.py").data :=
  (c8_name_matching "a.py" "*.py" false (by decide)).1 (by decide)

/-- C9: with content search enabled every result of either strategy is
a ContentMatch with a nonempty line list (no plain result and no
directory path ever appears — a directory entry contributes nothing in
content mode), and the caller's include_dirs value has no effect on the
result. -/
theorem c9_content_mode_files_only :
    (∀ base pattern max_depth incl b ip res,
      fast_find base pattern max_depth incl b true ip = Except.ok res →
      ∀ r ∈ res, ∃ q fnd, r = MatchResult.content q fnd ∧ fnd ≠ []) ∧
    (∀ base pattern max_depth incl b ip res,
      find_with_depth base pattern max_depth incl b true ip = Except.ok res →
      ∀ r ∈ res, ∃ q fnd, r = MatchResult.content q fnd ∧ fnd ≠ []) ∧
    (∀ base pattern max_depth b ip,
      fast_find base pattern max_depth true b true ip =
        fast_find base pattern max_depth false b true ip) ∧
    (∀ base pattern max_depth b ip,
      find_with_depth base pattern max_depth true b true ip =
        find_with_depth base pattern max_depth false b true ip) ∧
    (∀ (pattern : String) (b : Bool) (ip path name : _) (cs : List (String × FSTree)),
      processEntry ⟨pattern, false, b, true, parse_include_patterns ip b⟩ path name
        (FSTree.dir cs) = []) := by
  refine ⟨?_, ?_, ?_, ?_, ?_⟩
  · intro base pattern max_depth incl b ip res hok r hr
    obtain ⟨t, -, rfl⟩ := fast_find_ok base pattern max_depth incl b true ip res hok
    obtain ⟨path, nm, e, hpe⟩ := searchA_mem _ _ _ _ _ _ hr
    obtain ⟨fd, -, hcontent, hne⟩ := processEntry_content_mode _ rfl rfl _ _ _ _ hpe
    refine ⟨path, _, hcontent, ?_⟩
    intro heq
    rw [heq] at hne
    simp at hne
  · intro base pattern max_depth incl b ip res hok r hr
    obtain ⟨t, -, rfl⟩ := find_with_depth_ok base pattern max_depth incl b true ip res hok
    obtain ⟨pe, -, hproc⟩ := List.mem_flatMap.1 hr
    have hpe := processB_mem _ _ _ _ hproc
    obtain ⟨fd, -, hcontent, hne⟩ := processEntry_content_mode _ rfl rfl _ _ _ _ hpe
    refine ⟨pe.1, _, hcontent, ?_⟩
    intro heq
    rw [heq] at hne
    simp at hne
  · intro base pattern max_depth b ip
    cases base <;> rfl
  · intro base pattern max_depth b ip
    cases base <;> rfl
  · intro pattern b ip path name cs
    exact processEntry_dir_content_mode _ rfl path name cs

/-- C9 witness: the content-mode shape and the include_dirs
irrelevance at a concrete content search. -/
theorem c9_witness :
    (∃ q fnd, MatchResult.content ["a.py"] [((1 : Nat), "# TODO fix\n")] =
      MatchResult.content q fnd ∧ fnd ≠ []) ∧
    fast_find (some treeTodo) "TODO" 0 true false true "" =
      fast_find (some treeTodo) "TODO" 0 false false true "" :=
  ⟨c9_content_mode_files_only.1 (some treeTodo) "TODO" 0 true false ""
     [MatchResult.content ["a.py"] [(1, "# TODO fix\n")]] rfl
     (MatchResult.content ["a.py"] [(1, "# TODO fix\n")]) (by simp),
   c9_content_mode_files_only.2.2.1 (some treeTodo) "TODO" 0 false ""⟩

end FSearch
